import Mathlib

/-!
Verification of the zoom_attend attendance bookkeeping core.

The embedding follows the two Python sources:
* `src/app.py` (web front end): `extract_names_with_openai` post-processing
  (lines 53-64), the merge loop in `main` (lines 133-140), the report table
  (lines 155-164), the CSV rows (lines 171-182) and clearing (lines 194-196).
* `src/zoom_attendance.py` (desktop front end): `_extract_names_with_openai`
  (lines 333-344), `_do_capture` (lines 271-289), `_update_list` (346-359),
  `export_csv` (381-389) and `clear_data` (397-405).

A `Ledger` models the Python dict `attendance_data : {name: [timestamps]}` as an
insertion-ordered association list, which is exactly the iteration order and
update behaviour of a Python dict: lookups and in-place updates touch the first
matching key, new keys are appended at the end.

The Python string built-ins used by the sources (`str.strip`, `str.split`,
string comparison by code point, `str(int)` parsing) are embedded as
structurally recursive functions over the character list of a `String`.
-/

namespace ZoomAttend

/-- Python `str.strip()`: drop leading and trailing whitespace characters. -/
def pyStrip (s : String) : String :=
  ⟨((s.data.dropWhile Char.isWhitespace).reverse.dropWhile Char.isWhitespace).reverse⟩

/-- Python `text.split` on the newline character: split at every newline,
keeping empty pieces, so that `split` of the empty string is one empty
piece. -/
def pySplitLines (s : String) : List String :=
  (s.data.splitOn '\n').map (fun cs => ⟨cs⟩)

/-- Python string comparison (used by `sorted`): lexicographic on the code
points of the characters. -/
def pyStrLe (a b : String) : Bool :=
  go a.data b.data
where
  go : List Char → List Char → Bool
    | [], _ => true
    | _ :: _, [] => false
    | c :: cs, d :: ds =>
      if c.toNat < d.toNat then true
      else if d.toNat < c.toNat then false
      else go cs ds

/-- Position of the first occurrence of `a` in a list of strings (length of
the list when absent): the notion used to state first-seen order. -/
def firstIdx (a : String) : List String → Nat
  | [] => 0
  | b :: rest => if b = a then 0 else firstIdx a rest + 1

abbrev Name := String

abbrev Timestamp := String

/-- The dict `attendance_data`, mapping each attendee name to its list of
recorded timestamps, in insertion order. -/
abbrev Ledger := List (Name × List Timestamp)

/-- Dict lookup: `attendance_data[name]` / the membership test
`name in attendance_data` (first matching key). -/
def lookup : Ledger → Name → Option (List Timestamp)
  | [], _ => none
  | (k, v) :: rest, n => if k = n then some v else lookup rest n

/-- In-place `attendance_data[name].append(t)`: the first entry whose key is
`name` gets `t` appended to its timestamp list; absent keys leave the ledger
unchanged. -/
def appendTime : Ledger → Name → Timestamp → Ledger
  | [], _, _ => []
  | (k, v) :: rest, n, t =>
    if k = n then (k, v ++ [t]) :: rest else (k, v) :: appendTime rest n t

/-- The merge loop of `app.py` `main` (lines 136-140), identical to
`zoom_attendance.py` `_do_capture` (lines 280-284):

    for name in names:
        if name not in attendance_data:
            attendance_data[name] = []
            new_count += 1
        attendance_data[name].append(now)

A missing key is first bound to the empty list (appended at the dict end),
then the shared per-submission timestamp is appended. -/
def mergeLoop : Ledger → Nat → List Name → Timestamp → Ledger × Nat
  | l, c, [], _ => (l, c)
  | l, c, name :: rest, t =>
    if lookup l name = none then
      mergeLoop (appendTime (l ++ [(name, [])]) name t) (c + 1) rest t
    else
      mergeLoop (appendTime l name t) c rest t

/-- One submission merge: returns the updated ledger and `new_count`. -/
def merge (l : Ledger) (names : List Name) (t : Timestamp) : Ledger × Nat :=
  mergeLoop l 0 names t

/-- Clearing the data: `st.session_state.attendance_data = {}` in `app.py`
(line 195) and `self.attendance_data.clear()` in `zoom_attendance.py`. -/
def clear_data (_l : Ledger) : Ledger := []

namespace App

/-- The dedup loop of `app.py` `extract_names_with_openai` (lines 56-62); the
Python `seen` set is modelled as the list of names accepted so far:

    seen = set()
    unique_names = []
    for name in names:
        if name and name not in seen and len(name) >= 2:
            seen.add(name)
            unique_names.append(name)
-/
def dedupLoop : List String → List String → List String
  | [], _ => []
  | name :: rest, seen =>
    if name ≠ "" ∧ name ∉ seen ∧ 2 ≤ name.length then
      name :: dedupLoop rest (seen ++ [name])
    else
      dedupLoop rest seen

/-- Post-processing of the service response text in `app.py`
`extract_names_with_openai` (lines 53-64); the network call itself is an
external collaborator, so the function is taken from the point where the
returned message content is in hand:

    text = response.choices[0].message.content.strip()
    names = [line.strip() for line in text.split(<newline>) if line.strip()]
    ... dedup loop ...
-/
def extract_names_with_openai (content : String) : List String :=
  let text := pyStrip content
  let names := ((pySplitLines text).filter (fun line => pyStrip line ≠ "")).map pyStrip
  dedupLoop names []

end App

namespace ZoomAttendanceApp

/-- The dedup loop of `zoom_attendance.py` `_extract_names_with_openai`
(lines 337-343), written out separately because it is a separate copy in the
second source file. -/
def dedupLoop : List String → List String → List String
  | [], _ => []
  | name :: rest, seen =>
    if name ≠ "" ∧ name ∉ seen ∧ 2 ≤ name.length then
      name :: dedupLoop rest (seen ++ [name])
    else
      dedupLoop rest seen

/-- Post-processing of the service response text in `zoom_attendance.py`
`_extract_names_with_openai` (lines 333-344). -/
def _extract_names_with_openai (content : String) : List String :=
  let text := pyStrip content
  let names := ((pySplitLines text).filter (fun line => pyStrip line ≠ "")).map pyStrip
  dedupLoop names []

end ZoomAttendanceApp

/-- Order on ledger entries used by `sorted(attendance_data.items())`:
dict keys are unique, so Python tuple comparison reduces to comparing the
names. -/
def entryLE (a b : Name × List Timestamp) : Prop := pyStrLe a.1 b.1 = true

instance : DecidableRel entryLE :=
  fun a b => inferInstanceAs (Decidable (pyStrLe a.1 b.1 = true))

/-- `sorted(attendance_data.items())`, shared by the report table and the CSV
export in both sources. -/
def sortEntries (l : Ledger) : Ledger := List.insertionSort entryLE l

/-- The report table of `app.py` (lines 155-161) / `_update_list` of
`zoom_attendance.py` (lines 353-356): one row per entry, sorted by name, with
name, `times[0] if times else ""` and `len(times)`. -/
def build_report (l : Ledger) : List (Name × Timestamp × Nat) :=
  (sortEntries l).map (fun e => (e.1, e.2.headD "", e.2.length))

/-- The data rows written by `export_csv` of `zoom_attendance.py`
(lines 385-389), matching the CSV loop of `app.py` (lines 171-178): name,
first timestamp, the count rendered in decimal, and all timestamps joined
with "; ". -/
def export_rows (l : Ledger) : List (List String) :=
  (sortEntries l).map
    (fun e => [e.1, e.2.headD "", Nat.repr e.2.length, String.intercalate "; " e.2])

/-- The full row list written by `export_csv` (line 383 writes the header
row, then one row per entry). -/
def export_csv (l : Ledger) : List (List String) :=
  ["名前", "初回記録時刻", "記録回数", "全記録時刻"] :: export_rows l

/-- Python `int(s)` on a decimal digit string, as an option: the parsing
primitive used when reading a count field back in. -/
def readNat (s : String) : Option Nat :=
  if s.data ≠ [] ∧ s.data.all Char.isDigit then
    some (s.data.foldl (fun a c => a * 10 + (c.toNat - '0'.toNat)) 0)
  else none

/-- Modelled from the spec: the repository contains no reader for the exported
delimited rows (downstream spreadsheets consume the file), but the round-trip
property in the spec (§8, item 7) needs one.  Following §6, each data row after
the header carries `Name, FirstSeenTimestamp, VisitCount, AllTimestamps`; the
reader recovers the name and the visit count from every well-formed data
row. -/
def parse_export (rows : List (List String)) : List (Name × Nat) :=
  (rows.drop 1).filterMap fun row =>
    match row with
    | [name, _, count, _] => (readNat count).map (fun k => (name, k))
    | _ => none

/-- Outcome of one capture/extraction attempt: the service call raised
(`except Exception` in both sources), or it returned response text. -/
inductive ExtractionResult where
  | serviceError : ExtractionResult
  | ok : String → ExtractionResult

/-- One submission cycle of `app.py` `main` (lines 127-147), identical in
effect to `_do_capture` (lines 271-289): on a service error nothing has been
written to the ledger yet, on `names` empty only a warning is shown, otherwise
the whole normalized name list is merged with one shared timestamp. -/
def submitCycle (l : Ledger) (r : ExtractionResult) (t : Timestamp) : Ledger :=
  match r with
  | ExtractionResult.serviceError => l
  | ExtractionResult.ok text =>
    let names := App.extract_names_with_openai text
    if names = [] then l else (merge l names t).1

/-- Ledger states reachable from the empty start state by user actions: the
session starts with an empty dict, and only the merge loop and the clear
button ever write to it. -/
inductive Reachable : Ledger → Prop where
  | empty : Reachable []
  | mergeStep (names : List Name) (t : Timestamp) {l : Ledger} :
      Reachable l → Reachable (merge l names t).1
  | clearStep {l : Ledger} : Reachable l → Reachable (clear_data l)

/-! ### Association-list facts about `lookup` and `appendTime` -/

theorem lookup_append_right_ne {n m : Name} (h : n ≠ m) :
    ∀ (l : Ledger) (v : List Timestamp), lookup (l ++ [(m, v)]) n = lookup l n := by
  intro l v
  induction l with
  | nil => simp [lookup, Ne.symm h]
  | cons e rest ih =>
    obtain ⟨k, w⟩ := e
    simp [lookup, ih]

theorem lookup_append_self {n : Name} :
    ∀ {l : Ledger}, lookup l n = none → ∀ (v : List Timestamp),
      lookup (l ++ [(n, v)]) n = some v := by
  intro l
  induction l with
  | nil => intro _ v; simp [lookup]
  | cons e rest ih =>
    obtain ⟨k, w⟩ := e
    intro h v
    by_cases hk : k = n
    · simp [lookup, hk] at h
    · simp [lookup, hk] at h ⊢
      exact ih h v

theorem lookup_appendTime_ne {n m : Name} (h : n ≠ m) :
    ∀ (l : Ledger) (t : Timestamp), lookup (appendTime l m t) n = lookup l n := by
  intro l t
  induction l with
  | nil => rfl
  | cons e rest ih =>
    obtain ⟨k, w⟩ := e
    by_cases hk : k = m
    · subst hk
      simp [appendTime, lookup, Ne.symm h]
    · simp [appendTime, lookup, hk, ih]

theorem lookup_appendTime_self {m : Name} :
    ∀ {l : Ledger} {v : List Timestamp}, lookup l m = some v →
      ∀ (t : Timestamp), lookup (appendTime l m t) m = some (v ++ [t]) := by
  intro l
  induction l with
  | nil => intro v h; simp [lookup] at h
  | cons e rest ih =>
    obtain ⟨k, w⟩ := e
    intro v h t
    by_cases hk : k = m
    · subst hk
      simp [lookup] at h
      simp [appendTime, lookup, h]
    · simp [lookup, hk] at h
      simp [appendTime, lookup, hk, ih h t]

theorem appendTime_of_lookup_none {m : Name} :
    ∀ {l : Ledger}, lookup l m = none → ∀ (t : Timestamp), appendTime l m t = l := by
  intro l
  induction l with
  | nil => intro _ _; rfl
  | cons e rest ih =>
    obtain ⟨k, w⟩ := e
    intro h t
    by_cases hk : k = m
    · simp [lookup, hk] at h
    · simp [lookup, hk] at h
      simp [appendTime, hk, ih h t]

theorem appendTime_append_fresh {m : Name} {l : Ledger} (h : lookup l m = none)
    (v : List Timestamp) (t : Timestamp) :
    appendTime (l ++ [(m, v)]) m t = l ++ [(m, v ++ [t])] := by
  induction l with
  | nil => simp [appendTime]
  | cons e rest ih =>
    obtain ⟨k, w⟩ := e
    by_cases hk : k = m
    · simp [lookup, hk] at h
    · simp [lookup, hk] at h
      simp [appendTime, hk, ih h]

theorem mem_appendTime {e : Name × List Timestamp} {m : Name} {t : Timestamp} :
    ∀ {l : Ledger}, e ∈ appendTime l m t → e ∈ l ∨ ∃ k v, e = (k, v ++ [t]) := by
  intro l
  induction l with
  | nil => intro h; exact absurd h (by simp [appendTime])
  | cons f rest ih =>
    obtain ⟨k, w⟩ := f
    intro h
    by_cases hk : k = m
    · rw [appendTime, if_pos hk] at h
      rcases List.mem_cons.1 h with h1 | h1
      · exact Or.inr ⟨k, w, h1⟩
      · exact Or.inl (List.mem_cons_of_mem _ h1)
    · rw [appendTime, if_neg hk] at h
      rcases List.mem_cons.1 h with h1 | h1
      · exact Or.inl (h1 ▸ List.mem_cons_self _ _)
      · rcases ih h1 with h2 | h2
        · exact Or.inl (List.mem_cons_of_mem _ h2)
        · exact Or.inr h2

/-! ### Facts about the merge loop -/

/-- Unfolding one iteration of the merge loop. -/
theorem mergeLoop_cons (l : Ledger) (c : Nat) (m : Name) (rest : List Name) (t : Timestamp) :
    mergeLoop l c (m :: rest) t =
      if lookup l m = none then
        mergeLoop (appendTime (l ++ [(m, [])]) m t) (c + 1) rest t
      else
        mergeLoop (appendTime l m t) c rest t := rfl

/-- The ledger after one loop iteration, seen through `lookup`: the processed
name has the timestamp appended (to `[]` if it was new), all other names are
untouched. -/
theorem lookup_mergeLoop_step_self (l : Ledger) (m : Name) (t : Timestamp) :
    lookup (if lookup l m = none then appendTime (l ++ [(m, [])]) m t
            else appendTime l m t) m
      = some ((lookup l m).getD [] ++ [t]) := by
  by_cases h : lookup l m = none
  · rw [if_pos h, appendTime_append_fresh h [] t, lookup_append_self h, h]
    rfl
  · rw [if_neg h]
    obtain ⟨v, hv⟩ := Option.ne_none_iff_exists'.1 h
    rw [lookup_appendTime_self hv t, hv]
    rfl

theorem lookup_mergeLoop_step_ne {n m : Name} (hnm : n ≠ m) (l : Ledger) (t : Timestamp) :
    lookup (if lookup l m = none then appendTime (l ++ [(m, [])]) m t
            else appendTime l m t) n
      = lookup l n := by
  by_cases h : lookup l m = none
  · rw [if_pos h, lookup_appendTime_ne hnm, lookup_append_right_ne hnm]
  · rw [if_neg h, lookup_appendTime_ne hnm]

theorem lookup_mergeLoop_not_mem {n : Name} :
    ∀ {names : List Name}, n ∉ names →
      ∀ (l : Ledger) (c : Nat) (t : Timestamp),
        lookup (mergeLoop l c names t).1 n = lookup l n := by
  intro names
  induction names with
  | nil => intro _ l c t; rfl
  | cons m rest ih =>
    intro h l c t
    have hnm : n ≠ m := fun e => h (e ▸ List.mem_cons_self m rest)
    have hrest : n ∉ rest := fun e => h (List.mem_cons_of_mem m e)
    rw [mergeLoop_cons]
    by_cases hm : lookup l m = none
    · rw [if_pos hm, ih hrest]
      have := lookup_mergeLoop_step_ne hnm l t
      rwa [if_pos hm] at this
    · rw [if_neg hm, ih hrest, lookup_appendTime_ne hnm]

theorem lookup_mergeLoop_mem :
    ∀ {names : List Name}, names.Nodup → ∀ {n : Name}, n ∈ names →
      ∀ (l : Ledger) (c : Nat) (t : Timestamp),
        lookup (mergeLoop l c names t).1 n = some ((lookup l n).getD [] ++ [t]) := by
  intro names
  induction names with
  | nil => intro _ n hn; exact absurd hn (List.not_mem_nil n)
  | cons m rest ih =>
    intro hnd n hn l c t
    have hmrest : m ∉ rest := (List.nodup_cons.1 hnd).1
    have hrestnd : rest.Nodup := (List.nodup_cons.1 hnd).2
    rw [mergeLoop_cons]
    rcases List.mem_cons.1 hn with h1 | h1
    · subst h1
      by_cases hm : lookup l n = none
      · rw [if_pos hm, lookup_mergeLoop_not_mem hmrest]
        have := lookup_mergeLoop_step_self l n t
        rwa [if_pos hm] at this
      · rw [if_neg hm, lookup_mergeLoop_not_mem hmrest]
        have := lookup_mergeLoop_step_self l n t
        rwa [if_neg hm] at this
    · have hnm : n ≠ m := fun e => hmrest (e ▸ h1)
      by_cases hm : lookup l m = none
      · rw [if_pos hm, ih hrestnd h1]
        congr 2
        have := lookup_mergeLoop_step_ne hnm l t
        rw [if_pos hm] at this
        rw [this]
      · rw [if_neg hm, ih hrestnd h1]
        congr 2
        rw [lookup_appendTime_ne hnm]

theorem isSome_lookup_mergeLoop (n : Name) :
    ∀ (names : List Name) (l : Ledger) (c : Nat) (t : Timestamp),
      (lookup l n).isSome = true → (lookup (mergeLoop l c names t).1 n).isSome = true := by
  intro names
  induction names with
  | nil => intro l c t h; exact h
  | cons m rest ih =>
    intro l c t h
    rw [mergeLoop_cons]
    by_cases hnm : n = m
    · subst hnm
      by_cases hm : lookup l n = none
      · rw [hm] at h; exact absurd h (by simp)
      · rw [if_neg hm]
        apply ih
        obtain ⟨v, hv⟩ := Option.ne_none_iff_exists'.1 hm
        rw [lookup_appendTime_self hv t]
        rfl
    · by_cases hm : lookup l m = none
      · rw [if_pos hm]
        apply ih
        rw [lookup_appendTime_ne hnm, lookup_append_right_ne hnm]
        exact h
      · rw [if_neg hm]
        apply ih
        rw [lookup_appendTime_ne hnm]
        exact h

theorem mergeLoop_count :
    ∀ {names : List Name}, names.Nodup →
      ∀ (l : Ledger) (c : Nat) (t : Timestamp),
        (mergeLoop l c names t).2
          = c + (names.filter (fun n => lookup l n = none)).length := by
  intro names
  induction names with
  | nil => intro _ l c t; simp [mergeLoop]
  | cons m rest ih =>
    intro hnd l c t
    have hmrest : m ∉ rest := (List.nodup_cons.1 hnd).1
    have hrestnd : rest.Nodup := (List.nodup_cons.1 hnd).2
    rw [mergeLoop_cons]
    have hstep : ∀ x ∈ rest,
        (decide (lookup (if lookup l m = none then appendTime (l ++ [(m, [])]) m t
          else appendTime l m t) x = none))
        = (decide (lookup l x = none)) := by
      intro x hx
      have hxm : x ≠ m := fun e => hmrest (e ▸ hx)
      rw [lookup_mergeLoop_step_ne hxm l t]
    by_cases hm : lookup l m = none
    · rw [if_pos hm, ih hrestnd]
      have hfc : (List.filter (fun n => decide (lookup l n = none)) (m :: rest))
          = m :: List.filter (fun n => decide (lookup l n = none)) rest := by
        simp [List.filter_cons, hm]
      rw [hfc]
      have := List.filter_congr (p := fun x =>
          decide (lookup (appendTime (l ++ [(m, [])]) m t) x = none))
        (q := fun x => decide (lookup l x = none)) (l := rest) ?_
      · rw [this]
        simp only [List.length_cons]
        omega
      · intro x hx
        have := hstep x hx
        rwa [if_pos hm] at this
    · rw [if_neg hm, ih hrestnd]
      have hfc : (List.filter (fun n => decide (lookup l n = none)) (m :: rest))
          = List.filter (fun n => decide (lookup l n = none)) rest := by
        simp [List.filter_cons, hm]
      rw [hfc]
      have := List.filter_congr (p := fun x =>
          decide (lookup (appendTime l m t) x = none))
        (q := fun x => decide (lookup l x = none)) (l := rest) ?_
      · rw [this]
      · intro x hx
        have := hstep x hx
        rwa [if_neg hm] at this

theorem mergeLoop_entries_ne_nil :
    ∀ (names : List Name) (l : Ledger) (c : Nat) (t : Timestamp),
      (∀ e ∈ l, e.2 ≠ []) → ∀ e ∈ (mergeLoop l c names t).1, e.2 ≠ [] := by
  intro names
  induction names with
  | nil => intro l c t h e he; exact h e he
  | cons m rest ih =>
    intro l c t h e he
    rw [mergeLoop_cons] at he
    by_cases hm : lookup l m = none
    · rw [if_pos hm, appendTime_append_fresh hm [] t] at he
      refine ih _ _ _ ?_ e he
      intro f hf
      rcases List.mem_append.1 hf with h1 | h1
      · exact h f h1
      · simp only [List.mem_singleton] at h1
        subst h1
        simp
    · rw [if_neg hm] at he
      refine ih _ _ _ ?_ e he
      intro f hf
      rcases mem_appendTime hf with h1 | h1
      · exact h f h1
      · obtain ⟨k, v, hv⟩ := h1
        subst hv
        simp

/-! ### Facts about the dedup loop of the normalizer -/

theorem dedupLoop_eq_zoom :
    ∀ (xs seen : List String), App.dedupLoop xs seen = ZoomAttendanceApp.dedupLoop xs seen := by
  intro xs
  induction xs with
  | nil => intro seen; rfl
  | cons x rest ih =>
    intro seen
    by_cases h : x ≠ "" ∧ x ∉ seen ∧ 2 ≤ x.length
    · rw [App.dedupLoop, ZoomAttendanceApp.dedupLoop, if_pos h, if_pos h, ih]
    · rw [App.dedupLoop, ZoomAttendanceApp.dedupLoop, if_neg h, if_neg h, ih]

theorem dedupLoop_valid :
    ∀ (xs seen : List String) (n : String),
      n ∈ App.dedupLoop xs seen → n ≠ "" ∧ 2 ≤ n.length := by
  intro xs
  induction xs with
  | nil => intro seen n hn; exact absurd hn (List.not_mem_nil n)
  | cons x rest ih =>
    intro seen n hn
    by_cases h : x ≠ "" ∧ x ∉ seen ∧ 2 ≤ x.length
    · rw [App.dedupLoop, if_pos h] at hn
      rcases List.mem_cons.1 hn with h1 | h1
      · exact h1 ▸ ⟨h.1, h.2.2⟩
      · exact ih _ n h1
    · rw [App.dedupLoop, if_neg h] at hn
      exact ih _ n hn

theorem dedupLoop_not_mem_seen :
    ∀ (xs seen : List String) (n : String), n ∈ App.dedupLoop xs seen → n ∉ seen := by
  intro xs
  induction xs with
  | nil => intro seen n hn; exact absurd hn (List.not_mem_nil n)
  | cons x rest ih =>
    intro seen n hn
    by_cases h : x ≠ "" ∧ x ∉ seen ∧ 2 ≤ x.length
    · rw [App.dedupLoop, if_pos h] at hn
      rcases List.mem_cons.1 hn with h1 | h1
      · exact h1 ▸ h.2.1
      · intro hs
        exact ih _ n h1 (List.mem_append_left _ hs)
    · rw [App.dedupLoop, if_neg h] at hn
      exact ih _ n hn

theorem dedupLoop_nodup : ∀ (xs seen : List String), (App.dedupLoop xs seen).Nodup := by
  intro xs
  induction xs with
  | nil => intro seen; exact List.nodup_nil
  | cons x rest ih =>
    intro seen
    by_cases h : x ≠ "" ∧ x ∉ seen ∧ 2 ≤ x.length
    · rw [App.dedupLoop, if_pos h]
      refine List.nodup_cons.2 ⟨?_, ih _⟩
      intro hx
      have := dedupLoop_not_mem_seen rest (seen ++ [x]) x hx
      exact this (List.mem_append_right _ (List.mem_singleton.2 rfl))
    · rw [App.dedupLoop, if_neg h]
      exact ih _

theorem dedupLoop_sublist :
    ∀ (xs seen : List String),
      (App.dedupLoop xs seen).Sublist (xs.filter (fun s => 2 ≤ s.length)) := by
  intro xs
  induction xs with
  | nil => intro seen; exact List.Sublist.refl []
  | cons x rest ih =>
    intro seen
    by_cases h : x ≠ "" ∧ x ∉ seen ∧ 2 ≤ x.length
    · rw [App.dedupLoop, if_pos h]
      have hx : (decide (2 ≤ x.length)) = true := decide_eq_true h.2.2
      rw [List.filter_cons, if_pos hx]
      exact List.Sublist.cons₂ x (ih (seen ++ [x]))
    · rw [App.dedupLoop, if_neg h]
      rw [List.filter_cons]
      by_cases hx : (decide (2 ≤ x.length)) = true
      · rw [if_pos hx]
        exact List.Sublist.cons x (ih seen)
      · rw [if_neg hx]
        exact ih seen

theorem dedupLoop_complete :
    ∀ (xs seen : List String) (x : String),
      x ∈ xs → x ≠ "" → 2 ≤ x.length → x ∈ seen ∨ x ∈ App.dedupLoop xs seen := by
  intro xs
  induction xs with
  | nil => intro seen x hx; exact absurd hx (List.not_mem_nil x)
  | cons y rest ih =>
    intro seen x hx hne hlen
    by_cases h : y ≠ "" ∧ y ∉ seen ∧ 2 ≤ y.length
    · rw [App.dedupLoop, if_pos h]
      rcases List.mem_cons.1 hx with h1 | h1
      · exact Or.inr (h1 ▸ List.mem_cons_self _ _)
      · rcases ih (seen ++ [y]) x h1 hne hlen with h2 | h2
        · rcases List.mem_append.1 h2 with h3 | h3
          · exact Or.inl h3
          · exact Or.inr ((List.mem_singleton.1 h3) ▸ List.mem_cons_self _ _)
        · exact Or.inr (List.mem_cons_of_mem _ h2)
    · rw [App.dedupLoop, if_neg h]
      rcases List.mem_cons.1 hx with h1 | h1
      · subst h1
        by_cases hs : x ∈ seen
        · exact Or.inl hs
        · exact absurd ⟨hne, hs, hlen⟩ h
      · exact ih seen x h1 hne hlen

/-- The dedup loop emits names in strictly increasing order of their first
occurrence in its input: it keeps the first occurrence and drops the later
ones. -/
theorem dedupLoop_pairwise_firstIdx :
    ∀ (xs seen : List String),
      (App.dedupLoop xs seen).Pairwise (fun a b => firstIdx a xs < firstIdx b xs) := by
  intro xs
  induction xs with
  | nil => intro seen; exact List.Pairwise.nil
  | cons y rest ih =>
    intro seen
    by_cases h : y ≠ "" ∧ y ∉ seen ∧ 2 ≤ y.length
    · rw [App.dedupLoop, if_pos h]
      refine List.pairwise_cons.2 ⟨?_, ?_⟩
      · intro b hb
        have hbne : ¬y = b := by
          intro e
          exact dedupLoop_not_mem_seen rest (seen ++ [y]) b hb
            (List.mem_append_right _ (List.mem_singleton.2 e.symm))
        simp only [firstIdx, if_true]
        rw [if_neg hbne]
        omega
      · refine List.Pairwise.imp_of_mem ?_ (ih (seen ++ [y]))
        intro a b ha hb hab
        have hane : ¬y = a := by
          intro e
          exact dedupLoop_not_mem_seen rest (seen ++ [y]) a ha
            (List.mem_append_right _ (List.mem_singleton.2 e.symm))
        have hbne : ¬y = b := by
          intro e
          exact dedupLoop_not_mem_seen rest (seen ++ [y]) b hb
            (List.mem_append_right _ (List.mem_singleton.2 e.symm))
        simp only [firstIdx, if_neg hane, if_neg hbne]
        omega
    · rw [App.dedupLoop, if_neg h]
      refine List.Pairwise.imp_of_mem ?_ (ih seen)
      intro a b ha hb hab
      have hP : ∀ c : String, c ∈ App.dedupLoop rest seen →
          c ≠ "" ∧ c ∉ seen ∧ 2 ≤ c.length := by
        intro c hc
        exact ⟨(dedupLoop_valid rest seen c hc).1, dedupLoop_not_mem_seen rest seen c hc,
          (dedupLoop_valid rest seen c hc).2⟩
      have hane : ¬y = a := by
        intro e
        rw [← e] at ha
        exact h (hP y ha)
      have hbne : ¬y = b := by
        intro e
        rw [← e] at hb
        exact h (hP y hb)
      simp only [firstIdx, if_neg hane, if_neg hbne]
      omega

/-- Dropping filtered-out elements does not change the relative order of the
first occurrences of elements that survive the filter. -/
theorem firstIdx_filter_lt {p : String → Bool} :
    ∀ (l : List String) (a b : String), a ∈ l.filter p → b ∈ l.filter p →
      firstIdx a (l.filter p) < firstIdx b (l.filter p) → firstIdx a l < firstIdx b l := by
  intro l
  induction l with
  | nil => intro a b ha _ _; exact absurd ha (List.not_mem_nil a)
  | cons x rest ih =>
    intro a b ha hb hlt
    rw [List.filter_cons] at ha hb hlt
    by_cases hp : p x = true
    · rw [if_pos hp] at ha hb hlt
      by_cases hax : x = a
      · have hbx : ¬x = b := by
          intro e
          simp only [firstIdx, if_pos hax, if_pos e] at hlt
          omega
        simp only [firstIdx, if_pos hax, if_neg hbx]
        omega
      · have hbx : ¬x = b := by
          intro e
          simp only [firstIdx, if_pos e, if_neg hax] at hlt
          omega
        simp only [firstIdx, if_neg hax, if_neg hbx] at hlt ⊢
        have ha2 : a ∈ List.filter p rest := by
          rcases List.mem_cons.1 ha with h1 | h1
          · exact absurd h1.symm hax
          · exact h1
        have hb2 : b ∈ List.filter p rest := by
          rcases List.mem_cons.1 hb with h1 | h1
          · exact absurd h1.symm hbx
          · exact h1
        have := ih a b ha2 hb2 (by omega)
        omega
    · rw [if_neg hp] at ha hb hlt
      have hax : ¬x = a := by
        intro e
        have := (List.mem_filter.1 ha).2
        rw [← e] at this
        rw [this] at hp
        exact hp rfl
      have hbx : ¬x = b := by
        intro e
        have := (List.mem_filter.1 hb).2
        rw [← e] at this
        rw [this] at hp
        exact hp rfl
      simp only [firstIdx, if_neg hax, if_neg hbx]
      have := ih a b ha hb hlt
      omega

/-! ### The Python string order is total and transitive -/

theorem pyStrLe_go_total : ∀ (as bs : List Char), pyStrLe.go as bs = true ∨ pyStrLe.go bs as = true := by
  intro as
  induction as with
  | nil => intro bs; exact Or.inl rfl
  | cons c cs ih =>
    intro bs
    cases bs with
    | nil => exact Or.inr rfl
    | cons d ds =>
      rcases Nat.lt_trichotomy c.toNat d.toNat with h | h | h
      · left
        rw [pyStrLe.go, if_pos h]
      · rcases ih ds with h2 | h2
        · left
          rw [pyStrLe.go, if_neg (by omega), if_neg (by omega)]
          exact h2
        · right
          rw [pyStrLe.go, if_neg (by omega), if_neg (by omega)]
          exact h2
      · right
        rw [pyStrLe.go, if_pos h]

theorem pyStrLe_go_trans :
    ∀ (as bs cs : List Char), pyStrLe.go as bs = true → pyStrLe.go bs cs = true →
      pyStrLe.go as cs = true := by
  intro as
  induction as with
  | nil => intro bs cs _ _; rfl
  | cons x xs ih =>
    intro bs cs h1 h2
    cases bs with
    | nil => exact absurd h1 (by rw [pyStrLe.go]; simp)
    | cons y ys =>
      cases cs with
      | nil => exact absurd h2 (by rw [pyStrLe.go]; simp)
      | cons z zs =>
        rw [pyStrLe.go] at h1 h2 ⊢
        by_cases hxy : x.toNat < y.toNat
        · by_cases hyz : y.toNat < z.toNat
          · rw [if_pos (by omega)]
          · rw [if_neg hyz] at h2
            by_cases hzy : z.toNat < y.toNat
            · rw [if_pos hzy] at h2
              exact absurd h2 (by simp)
            · rw [if_pos (by omega)]
        · rw [if_neg hxy] at h1
          by_cases hyx : y.toNat < x.toNat
          · rw [if_pos hyx] at h1
            exact absurd h1 (by simp)
          · rw [if_neg hyx] at h1
            by_cases hyz : y.toNat < z.toNat
            · rw [if_pos (by omega)]
            · rw [if_neg hyz] at h2
              by_cases hzy : z.toNat < y.toNat
              · rw [if_pos hzy] at h2
                exact absurd h2 (by simp)
              · rw [if_neg hzy] at h2
                rw [if_neg (by omega), if_neg (by omega)]
                exact ih ys zs h1 h2

instance : IsTotal (Name × List Timestamp) entryLE :=
  ⟨fun a b => pyStrLe_go_total a.1.data b.1.data⟩

instance : IsTrans (Name × List Timestamp) entryLE :=
  ⟨fun _ _ _ h1 h2 => pyStrLe_go_trans _ _ _ h1 h2⟩

/-! ### Decimal rendering round-trips through decimal reading -/

theorem digitChar_isDigit {d : Nat} (h : d < 10) : (Nat.digitChar d).isDigit = true := by
  interval_cases d <;> decide

theorem digitChar_toNat {d : Nat} (h : d < 10) : (Nat.digitChar d).toNat - ('0').toNat = d := by
  interval_cases d <;> decide

theorem toDigitsCore_digits :
    ∀ (fuel n : Nat) (ds : List Char), (∀ c ∈ ds, c.isDigit = true) →
      ∀ c ∈ Nat.toDigitsCore 10 fuel n ds, c.isDigit = true := by
  intro fuel
  induction fuel with
  | zero => intro n ds h; exact h
  | succ f ih =>
    intro n ds h c hc
    rw [Nat.toDigitsCore] at hc
    by_cases h0 : n / 10 = 0
    · rw [if_pos h0] at hc
      rcases List.mem_cons.1 hc with h1 | h1
      · exact h1 ▸ digitChar_isDigit (Nat.mod_lt n (by omega))
      · exact h c h1
    · rw [if_neg h0] at hc
      refine ih (n / 10) _ ?_ c hc
      intro e he
      rcases List.mem_cons.1 he with h1 | h1
      · exact h1 ▸ digitChar_isDigit (Nat.mod_lt n (by omega))
      · exact h e h1

theorem toDigitsCore_ne_nil :
    ∀ (fuel n : Nat) (ds : List Char), ds ≠ [] → Nat.toDigitsCore 10 fuel n ds ≠ [] := by
  intro fuel
  induction fuel with
  | zero => intro n ds h; exact h
  | succ f ih =>
    intro n ds h
    rw [Nat.toDigitsCore]
    by_cases h0 : n / 10 = 0
    · rw [if_pos h0]
      simp
    · rw [if_neg h0]
      exact ih (n / 10) _ (by simp)

theorem foldl_toDigitsCore :
    ∀ (fuel n : Nat) (ds : List Char), n < 10 ^ fuel →
      List.foldl (fun a c => a * 10 + (c.toNat - ('0').toNat)) 0 (Nat.toDigitsCore 10 fuel n ds)
        = List.foldl (fun a c => a * 10 + (c.toNat - ('0').toNat)) n ds := by
  intro fuel
  induction fuel with
  | zero =>
    intro n ds h
    have h0 : n = 0 := by omega
    subst h0
    rfl
  | succ f ih =>
    intro n ds h
    rw [Nat.toDigitsCore]
    by_cases h0 : n / 10 = 0
    · rw [if_pos h0, List.foldl_cons]
      have hn : n < 10 := by omega
      rw [digitChar_toNat (Nat.mod_lt n (by omega))]
      have : 0 * 10 + n % 10 = n := by omega
      rw [this]
    · rw [if_neg h0]
      have hdiv : n / 10 < 10 ^ f := by
        rw [Nat.div_lt_iff_lt_mul (by omega)]
        calc n < 10 ^ (f + 1) := h
          _ = 10 ^ f * 10 := by ring
      rw [ih (n / 10) _ hdiv, List.foldl_cons,
        digitChar_toNat (Nat.mod_lt n (by omega))]
      have : n / 10 * 10 + n % 10 = n := by omega
      rw [this]

/-- Reading back the decimal rendering of a count recovers the count. -/
theorem readNat_repr (n : Nat) : readNat (Nat.repr n) = some n := by
  have hdata : (Nat.repr n).data = Nat.toDigits 10 n := rfl
  have hne : Nat.toDigits 10 n ≠ [] := by
    rw [Nat.toDigits]
    by_cases h0 : n / 10 = 0
    · rw [Nat.toDigitsCore, if_pos h0]
      simp
    · rw [Nat.toDigitsCore, if_neg h0]
      exact toDigitsCore_ne_nil n (n / 10) _ (by simp)
  have hdig : ∀ c ∈ Nat.toDigits 10 n, c.isDigit = true :=
    toDigitsCore_digits (n + 1) n [] (by intro c hc; exact absurd hc (List.not_mem_nil c))
  rw [readNat, hdata, if_pos ⟨hne, List.all_eq_true.2 hdig⟩]
  have hlt : n < 10 ^ (n + 1) := by
    calc n < 10 ^ n := Nat.lt_pow_self (by omega) n
      _ ≤ 10 ^ (n + 1) := Nat.pow_le_pow_right (by omega) (Nat.le_succ n)
  rw [Nat.toDigits, foldl_toDigitsCore (n + 1) n [] hlt]
  rfl

/-- Reading back a block of well-formed export rows recovers the (name, count)
pairs. -/
theorem parse_export_rows (xs : Ledger) :
    (xs.map (fun e : Name × List Timestamp =>
        ([e.1, e.2.headD "", Nat.repr e.2.length,
          String.intercalate "; " e.2] : List String))).filterMap
      (fun row => match row with
        | [name, _, count, _] => (readNat count).map (fun k => (name, k))
        | _ => none)
      = xs.map (fun e => (e.1, e.2.length)) := by
  induction xs with
  | nil => rfl
  | cons e rest ih =>
    simp only [List.map_cons, List.filterMap_cons, readNat_repr, Option.map_some']
    rw [ih]

/-! ### Claim theorems -/

/-- C1: for every ledger, every ordered sequence of unique names from one
normalizer pass, and the single per-submission timestamp, `merge` creates a new
entry for each name absent from the ledger, appends the timestamp exactly once
to each input name (whether new or pre-existing), and reports `new_count`
equal to the number of input names that were absent before the call. -/
theorem merge_postcondition (l : Ledger) (names : List Name) (t : Timestamp)
    (hnd : names.Nodup) :
    (∀ n ∈ names, lookup (merge l names t).1 n = some ((lookup l n).getD [] ++ [t])) ∧
    (merge l names t).2 = (names.filter (fun n => lookup l n = none)).length := by
  constructor
  · intro n hn
    exact lookup_mergeLoop_mem hnd hn l 0 t
  · rw [merge, mergeLoop_count hnd l 0 t, Nat.zero_add]

/-- Witness for C1 at a concrete ledger and batch: "Bob" is new and gets the
timestamp, and one of the two submitted names was absent. -/
theorem merge_postcondition_witness :
    lookup (merge [("Alice", ["t0"])] ["Bob", "Alice"] "t1").1 "Bob"
      = some ((lookup [("Alice", ["t0"])] "Bob").getD [] ++ ["t1"]) ∧
    (merge [("Alice", ["t0"])] ["Bob", "Alice"] "t1").2
      = ((["Bob", "Alice"] : List Name).filter
          (fun n => lookup [("Alice", ["t0"])] n = none)).length := by
  have h := merge_postcondition [("Alice", ["t0"])] ["Bob", "Alice"] "t1" (by decide)
  exact ⟨h.1 "Bob" (by decide), h.2⟩

/-- C2: the normalizer output has no empty and no shorter-than-2 lines, keeps
every other trimmed line exactly once, and lists them in their original
first-seen order: it is a duplicate-free subsequence of the valid trimmed
lines that contains each of them, ordered by strictly increasing position of
the first occurrence in the trimmed line sequence. -/
theorem normalizer_contract (content : String) :
    (∀ n ∈ App.extract_names_with_openai content, n ≠ "" ∧ 2 ≤ n.length) ∧
    (App.extract_names_with_openai content).Nodup ∧
    (App.extract_names_with_openai content).Sublist
      (((pySplitLines (pyStrip content)).map pyStrip).filter (fun s => 2 ≤ s.length)) ∧
    (App.extract_names_with_openai content).Pairwise
      (fun a b => firstIdx a ((pySplitLines (pyStrip content)).map pyStrip)
        < firstIdx b ((pySplitLines (pyStrip content)).map pyStrip)) ∧
    (∀ s ∈ (pySplitLines (pyStrip content)).map pyStrip,
      2 ≤ s.length → s ∈ App.extract_names_with_openai content) := by
  have htwo : ∀ s : String, 2 ≤ s.length → s ≠ "" := by
    intro s h e
    subst e
    exact absurd h (by decide)
  have hx : App.extract_names_with_openai content
      = App.dedupLoop (((pySplitLines (pyStrip content)).filter
          (fun line => pyStrip line ≠ "")).map pyStrip) [] := rfl
  have hfilters :
      (((pySplitLines (pyStrip content)).filter
          (fun line => pyStrip line ≠ "")).map pyStrip).filter (fun s => 2 ≤ s.length)
        = ((pySplitLines (pyStrip content)).map pyStrip).filter (fun s => 2 ≤ s.length) := by
    rw [List.filter_map, List.filter_map, List.filter_filter]
    congr 1
    apply List.filter_congr
    intro a _
    by_cases hp : 2 ≤ (pyStrip a).length
    · simp [Function.comp, hp, htwo _ hp]
    · simp [Function.comp, hp]
  have hcand : ((pySplitLines (pyStrip content)).map pyStrip).filter (fun s => s ≠ "")
      = ((pySplitLines (pyStrip content)).filter
          (fun line => pyStrip line ≠ "")).map pyStrip := by
    rw [List.filter_map]
    rfl
  refine ⟨?_, ?_, ?_, ?_, ?_⟩
  · intro n hn
    rw [hx] at hn
    exact dedupLoop_valid _ [] n hn
  · rw [hx]
    exact dedupLoop_nodup _ []
  · rw [hx, ← hfilters]
    exact dedupLoop_sublist _ []
  · rw [hx]
    refine List.Pairwise.imp_of_mem ?_ (dedupLoop_pairwise_firstIdx _ [])
    intro a b ha hb hab
    have hamem : a ∈ ((pySplitLines (pyStrip content)).filter
        (fun line => pyStrip line ≠ "")).map pyStrip :=
      (List.mem_filter.1 (List.Sublist.subset (dedupLoop_sublist _ []) ha)).1
    have hbmem : b ∈ ((pySplitLines (pyStrip content)).filter
        (fun line => pyStrip line ≠ "")).map pyStrip :=
      (List.mem_filter.1 (List.Sublist.subset (dedupLoop_sublist _ []) hb)).1
    exact firstIdx_filter_lt ((pySplitLines (pyStrip content)).map pyStrip) a b
      (by rw [hcand]; exact hamem) (by rw [hcand]; exact hbmem)
      (by rw [hcand]; exact hab)
  · intro s hs hlen
    obtain ⟨line, hline, hstrip⟩ := List.mem_map.1 hs
    have hne : s ≠ "" := htwo s hlen
    have hcand : s ∈ ((pySplitLines (pyStrip content)).filter
        (fun line => pyStrip line ≠ "")).map pyStrip := by
      refine List.mem_map.2 ⟨line, List.mem_filter.2 ⟨hline, ?_⟩, hstrip⟩
      simp [hstrip, hne]
    rw [hx]
    rcases dedupLoop_complete _ [] s hcand hne hlen with h | h
    · exact absurd h (List.not_mem_nil s)
    · exact h

/-- Witness for C2: a line that survives trimming and the length filter is in
the output. -/
theorem normalizer_contract_witness :
    "Bob" ∈ App.extract_names_with_openai "Alice\n\nB\nAlice\nBob" :=
  (normalizer_contract "Alice\n\nB\nAlice\nBob").2.2.2.2 "Bob" (by decide) (by decide)

/-- C3: merging the same duplicate-free name list twice (with two timestamps)
into a ledger holding none of those names yields exactly the two VisitRecords
per name, and the second call reports `new_count = 0`. -/
theorem merge_twice_two_records (l : Ledger) (names : List Name) (t1 t2 : Timestamp)
    (hnd : names.Nodup) (hfresh : ∀ n ∈ names, lookup l n = none) :
    (merge (merge l names t1).1 names t2).2 = 0 ∧
    (∀ n ∈ names, lookup (merge (merge l names t1).1 names t2).1 n = some [t1, t2]) := by
  have h1 : ∀ n ∈ names, lookup (merge l names t1).1 n = some [t1] := by
    intro n hn
    have := lookup_mergeLoop_mem hnd hn l 0 t1
    rwa [hfresh n hn] at this
  constructor
  · rw [merge, mergeLoop_count hnd _ 0 t2, Nat.zero_add]
    have hempty : ((names.filter
        (fun n => lookup (merge l names t1).1 n = none)) : List Name) = [] := by
      rw [List.filter_eq_nil_iff]
      intro n hn
      simp [h1 n hn]
    rw [hempty]
    rfl
  · intro n hn
    have := lookup_mergeLoop_mem hnd hn (merge l names t1).1 0 t2
    rw [h1 n hn] at this
    simpa using this

/-- Witness for C3 with two names merged twice into the empty ledger. -/
theorem merge_twice_two_records_witness :
    (merge (merge [] ["Alice", "Bob"] "T1").1 ["Alice", "Bob"] "T2").2 = 0 ∧
    lookup (merge (merge [] ["Alice", "Bob"] "T1").1 ["Alice", "Bob"] "T2").1 "Alice"
      = some ["T1", "T2"] := by
  have h := merge_twice_two_records [] ["Alice", "Bob"] "T1" "T2" (by decide)
    (fun n _ => rfl)
  exact ⟨h.1, h.2 "Alice" (by decide)⟩

/-- C4: the report has one row per ledger entry (as a permutation of the
per-entry rows), each row being the name, the first recorded timestamp and the
record count, and the rows are sorted by name in ascending code-point
lexicographic order, whatever the insertion order was. -/
theorem build_report_contract (l : Ledger) :
    (build_report l).Perm (l.map (fun e => (e.1, e.2.headD "", e.2.length))) ∧
    List.Sorted (fun r1 r2 => pyStrLe r1.1 r2.1 = true) (build_report l) := by
  constructor
  · exact (List.perm_insertionSort entryLE l).map _
  · exact List.Pairwise.map _ (fun a b (h : entryLE a b) => h)
      (List.sorted_insertionSort entryLE l)

/-- C5: the export row of a name with records `T1 :: rest` carries first
timestamp `T1`, the record count and the "; "-joined timestamps; and reading
the exported rows back recovers exactly the (name, count) pairs of the
ledger. -/
theorem export_round_trip (l : Ledger) :
    (∀ name T1 rest, (name, T1 :: rest) ∈ l →
      [name, T1, Nat.repr (T1 :: rest).length, String.intercalate "; " (T1 :: rest)]
        ∈ export_csv l) ∧
    (parse_export (export_csv l)).Perm (l.map (fun e => (e.1, e.2.length))) := by
  constructor
  · intro name T1 rest hmem
    have h1 : (name, T1 :: rest) ∈ sortEntries l :=
      ((List.perm_insertionSort entryLE l).mem_iff).2 hmem
    have h2 := List.mem_map_of_mem
      (fun e : Name × List Timestamp =>
        ([e.1, e.2.headD "", Nat.repr e.2.length, String.intercalate "; " e.2] : List String))
      h1
    exact List.mem_cons_of_mem _ h2
  · have hparse : parse_export (export_csv l)
        = (sortEntries l).map (fun e => (e.1, e.2.length)) := by
      rw [export_csv, parse_export]
      simp only [List.drop_succ_cons, List.drop_zero]
      exact parse_export_rows (sortEntries l)
    rw [hparse]
    exact (List.perm_insertionSort entryLE l).map _

/-- Witness for C5: the row of "Dana" with two records is in the export. -/
theorem export_round_trip_witness :
    ["Dana", "T1", Nat.repr (("T1" :: ["T2"] : List Timestamp)).length,
      String.intercalate "; " ("T1" :: ["T2"])] ∈ export_csv [("Dana", ["T1", "T2"])] :=
  (export_round_trip [("Dana", ["T1", "T2"])]).1 "Dana" "T1" ["T2"] (by decide)

/-- C6: in every ledger state reachable from the empty ledger by merges and
clears, every name present in the ledger has at least one VisitRecord. -/
theorem ledger_invariant {l : Ledger} (hr : Reachable l) :
    ∀ n ts, (n, ts) ∈ l → ts ≠ [] := by
  induction hr with
  | empty =>
    intro n ts h
    exact absurd h (List.not_mem_nil _)
  | mergeStep names t hprev ih =>
    intro n ts h
    exact mergeLoop_entries_ne_nil names _ 0 t (fun e he => ih e.1 e.2 he) (n, ts) h
  | clearStep hprev ih =>
    intro n ts h
    exact absurd h (List.not_mem_nil _)

/-- Witness for C6: a reachable one-entry ledger has a nonempty record list. -/
theorem ledger_invariant_witness : (["T"] : List Timestamp) ≠ [] :=
  ledger_invariant (Reachable.mergeStep ["Al"] "T" Reachable.empty) "Al" ["T"] (by decide)

/-- C7: a submission cycle leaves the ledger unchanged when the service call
fails or when the response normalizes to zero names; otherwise the merge
applies to every normalized name of the submission (never to a proper
subset). -/
theorem merge_atomic_on_error (l : Ledger) (t : Timestamp) :
    submitCycle l ExtractionResult.serviceError t = l ∧
    (∀ text, App.extract_names_with_openai text = [] →
      submitCycle l (ExtractionResult.ok text) t = l) ∧
    (∀ text n, n ∈ App.extract_names_with_openai text →
      lookup (submitCycle l (ExtractionResult.ok text) t) n
        = some ((lookup l n).getD [] ++ [t])) := by
  refine ⟨rfl, ?_, ?_⟩
  · intro text h
    simp only [submitCycle]
    rw [if_pos h]
  · intro text n hn
    have hne : App.extract_names_with_openai text ≠ [] := by
      intro e
      rw [e] at hn
      exact absurd hn (List.not_mem_nil n)
    have hnd : (App.extract_names_with_openai text).Nodup := dedupLoop_nodup _ []
    simp only [submitCycle]
    rw [if_neg hne]
    exact lookup_mergeLoop_mem hnd hn l 0 t

/-- Witness for C7: a successful extraction writes the shared timestamp for a
detected name. -/
theorem merge_atomic_on_error_witness :
    lookup (submitCycle [] (ExtractionResult.ok "Bob\nCd") "T") "Bob"
      = some ((lookup [] "Bob").getD [] ++ ["T"]) :=
  (merge_atomic_on_error [] "T").2.2 "Bob\nCd" "Bob" (by decide)

/-- C8: clear is unconditional and yields the empty ledger; report and export
on a cleared (or empty) ledger produce zero rows rather than an error. -/
theorem clear_contract (l : Ledger) :
    clear_data l = [] ∧ build_report (clear_data l) = [] ∧
    build_report ([] : Ledger) = [] ∧ export_rows (clear_data l) = [] :=
  ⟨rfl, rfl, rfl, rfl⟩

/-- C9: the web and the desktop implementations share the extraction and
normalization logic: on every response text the two normalizers return the
same ordered list of unique names. -/
theorem extraction_logic_equal (content : String) :
    App.extract_names_with_openai content
      = ZoomAttendanceApp._extract_names_with_openai content := by
  simp only [App.extract_names_with_openai, ZoomAttendanceApp._extract_names_with_openai]
  exact dedupLoop_eq_zoom _ []

/-- C10: merge never touches entries whose name is not in the submitted list,
and never removes a key. -/
theorem merge_frame (l : Ledger) (names : List Name) (t : Timestamp) :
    (∀ n, n ∉ names → lookup (merge l names t).1 n = lookup l n) ∧
    (∀ n, (lookup l n).isSome = true → (lookup (merge l names t).1 n).isSome = true) :=
  ⟨fun _ hn => lookup_mergeLoop_not_mem hn l 0 t,
    fun n h => isSome_lookup_mergeLoop n names l 0 t h⟩

/-- Witness for C10: merging "Bob" leaves the entry of "Alice" unchanged and
keeps the key present. -/
theorem merge_frame_witness :
    lookup (merge [("Alice", ["t0"])] ["Bob"] "t1").1 "Alice"
      = lookup [("Alice", ["t0"])] "Alice" ∧
    (lookup (merge [("Alice", ["t0"])] ["Bob"] "t1").1 "Alice").isSome = true := by
  have h := merge_frame [("Alice", ["t0"])] ["Bob"] "t1"
  exact ⟨h.1 "Alice" (by decide), h.2 "Alice" (by decide)⟩

/-! ### Concrete evaluations of the embedded operations -/

example : App.extract_names_with_openai "Alice\n\nB\nAlice\nBob" = ["Alice", "Bob"] := rfl

example : App.extract_names_with_openai " Alice \n\nB\n Alice\nBob " = ["Alice", "Bob"] := rfl

example : App.extract_names_with_openai "aa\nbb\naa" = ["aa", "bb"] := rfl

example : merge [] ["Al"] "T" = ([("Al", ["T"])], 1) := rfl

example : (merge [("Alice", ["t0"])] ["Bob", "Alice"] "t1").1
    = [("Alice", ["t0", "t1"]), ("Bob", ["t1"])] := rfl

example : ("Bob" : String) ∈ (pySplitLines (pyStrip "Alice\n\nB\nAlice\nBob")).map pyStrip := by
  decide

example : build_report [("Carol", ["T"]), ("Alice", ["U"]), ("Bob", ["V"])]
    = [("Alice", "U", 1), ("Bob", "V", 1), ("Carol", "T", 1)] := rfl

example : parse_export (export_csv [("Dana", ["T1", "T2"])]) = [("Dana", 2)] := rfl

example : export_rows [("Dana", ["T1", "T2"])] = [["Dana", "T1", "2", "T1; T2"]] := rfl

end ZoomAttend
